/-
  Verification of the taproot-asset-rs MS-SMT core against its specification.

  The development shallowly embeds the two Rust modules `src/mssmt/src/tree.rs`
  and `src/mssmt/src/node.rs`.  Bytes are natural numbers below 256, byte
  strings are `List Nat`, `u64` sums are `Nat` and the one `u64` arithmetic
  operation the code performs — the branch-sum addition — is embedded as
  wrapping addition modulo `2^64` (Rust release semantics; debug builds
  panic at the same inputs), and Rust `&str` inputs are lists of byte codes
  (Rust strings are UTF-8 byte sequences and `len()` is the byte length).  SHA-256, provided to the Rust code by the `bitcoin`
  crate, is implemented executably below (FIPS 180-4) and validated against
  the standard test vectors.  Fallible operations — vector indexing past the
  length, hex parsing — return `Option`/`Except`.
-/
import Mathlib

set_option maxRecDepth 10000

/-! ## SHA-256 (FIPS 180-4), executable over byte lists -/

/-- Truncate to a 32-bit word. -/
def u32 (n : Nat) : Nat := n % 4294967296

/-- Right rotation of a 32-bit word by `r` bits. -/
def rotr32 (r x : Nat) : Nat := u32 ((x >>> r) ||| (x <<< (32 - r)))

/-- Byte `i` of `n`, counting from the least significant byte. -/
def byteAt (n i : Nat) : Nat := (n >>> (8 * i)) % 256

/-- Big-endian 8-byte encoding of a 64-bit value (Rust `u64::to_be_bytes`). -/
def be64 (n : Nat) : List Nat :=
  (List.range 8).reverse.map (byteAt n)

def sha256Ch (x y z : Nat) : Nat := (x &&& y) ^^^ ((x ^^^ 4294967295) &&& z)

def sha256Maj (x y z : Nat) : Nat := (x &&& y) ^^^ (x &&& z) ^^^ (y &&& z)

def bigSigma0 (x : Nat) : Nat := rotr32 2 x ^^^ rotr32 13 x ^^^ rotr32 22 x

def bigSigma1 (x : Nat) : Nat := rotr32 6 x ^^^ rotr32 11 x ^^^ rotr32 25 x

def smallSigma0 (x : Nat) : Nat := rotr32 7 x ^^^ rotr32 18 x ^^^ (x >>> 3)

def smallSigma1 (x : Nat) : Nat := rotr32 17 x ^^^ rotr32 19 x ^^^ (x >>> 10)

/-- Binary search step for integer roots: narrows `[lo, hi]` keeping
    `lo ^ k ≤ n`. -/
def natRootAux (k n : Nat) : Nat → Nat → Nat → Nat
  | 0, lo, _ => lo
  | fuel + 1, lo, hi =>
      let mid := (lo + hi + 1) / 2
      if mid ^ k ≤ n then natRootAux k n fuel mid hi
      else natRootAux k n fuel lo (mid - 1)

/-- The largest `r ≤ 2^64` with `r ^ k ≤ n`. -/
def natRootBelow (k n : Nat) : Nat := natRootAux k n 64 0 18446744073709551616

/-- The first 64 primes, whose roots seed the SHA-256 constants. -/
def sha256Primes : List Nat :=
  [2, 3, 5, 7, 11, 13, 17, 19, 23, 29, 31, 37, 41, 43, 47, 53,
   59, 61, 67, 71, 73, 79, 83, 89, 97, 101, 103, 107, 109, 113, 127, 131,
   137, 139, 149, 151, 157, 163, 167, 173, 179, 181, 191, 193, 197, 199, 211, 223,
   227, 229, 233, 239, 241, 251, 257, 263, 269, 271, 277, 281, 283, 293, 307, 311]

/-- The 64 SHA-256 round constants: the first 32 bits of the fractional parts
    of the cube roots of the first 64 primes (FIPS 180-4 §4.2.2). -/
def sha256K : List Nat :=
  sha256Primes.map fun p => u32 (natRootBelow 3 (p <<< 96))

/-- The SHA-256 initial hash state: the first 32 bits of the fractional parts
    of the square roots of the first 8 primes (FIPS 180-4 §5.3.3). -/
def sha256H0 : List Nat :=
  (sha256Primes.take 8).map fun p => u32 (natRootBelow 2 (p <<< 64))

/-- Group a byte list into big-endian 32-bit words, four bytes per word. -/
def bytesToWords : List Nat → List Nat
  | b0 :: b1 :: b2 :: b3 :: rest =>
      (((((b0 <<< 8) ||| b1) <<< 8) ||| b2) <<< 8 ||| b3) :: bytesToWords rest
  | _ => []

/-- Serialize 32-bit words back to big-endian bytes. -/
def wordsToBytes : List Nat → List Nat
  | [] => []
  | w :: rest =>
      byteAt w 3 :: byteAt w 2 :: byteAt w 1 :: byteAt w 0 :: wordsToBytes rest

/-- Extend the 16-word block schedule by `fuel` further words. -/
def extendW : Nat → List Nat → List Nat
  | 0, ws => ws
  | fuel + 1, ws =>
      let n := ws.length
      let next := u32 (smallSigma1 (ws.getD (n - 2) 0) + ws.getD (n - 7) 0 +
                       smallSigma0 (ws.getD (n - 15) 0) + ws.getD (n - 16) 0)
      extendW fuel (ws ++ [next])

/-- One SHA-256 compression round: the state is the word list `[a,b,c,d,e,f,g,h]`,
    `kw` the round constant paired with the scheduled word. -/
def sha256Round (st : List Nat) (kw : Nat × Nat) : List Nat :=
  match st with
  | [a, b, c, d, e, f, g, h] =>
      let t1 := u32 (h + bigSigma1 e + sha256Ch e f g + kw.1 + kw.2)
      let t2 := u32 (bigSigma0 a + sha256Maj a b c)
      [u32 (t1 + t2), a, b, c, u32 (d + t1), e, f, g]
  | other => other

/-- Compress one 64-byte block into the running 8-word hash state. -/
def sha256Compress (h : List Nat) (block : List Nat) : List Nat :=
  let w := extendW 48 (bytesToWords block)
  let st := List.foldl sha256Round h (sha256K.zip w)
  (h.zip st).map fun p => u32 (p.1 + p.2)

/-- Fold `n` consecutive 64-byte blocks of `msg` into the state. -/
def sha256Blocks : Nat → List Nat → List Nat → List Nat
  | 0, _, h => h
  | n + 1, msg, h => sha256Blocks n (msg.drop 64) (sha256Compress h (msg.take 64))

/-- FIPS 180-4 padding: append `0x80`, zero bytes to 56 mod 64, then the
    bit length as a big-endian 64-bit integer. -/
def sha256Pad (msg : List Nat) : List Nat :=
  msg ++ [0x80] ++ List.replicate ((119 - msg.length % 64) % 64) 0 ++ be64 (8 * msg.length)

/-- SHA-256 of a byte list, as a 32-byte list. -/
def sha256 (msg : List Nat) : List Nat :=
  let p := sha256Pad msg
  wordsToBytes (sha256Blocks (p.length / 64) p sha256H0)

/-- SHA-256 of the empty message is the well-known digest (FIPS test vector). -/
theorem sha256_nil_vector :
    sha256 [] =
      [0xe3, 0xb0, 0xc4, 0x42, 0x98, 0xfc, 0x1c, 0x14, 0x9a, 0xfb, 0xf4, 0xc8, 0x99, 0x6f,
       0xb9, 0x24, 0x27, 0xae, 0x41, 0xe4, 0x64, 0x9b, 0x93, 0x4c, 0xa4, 0x95, 0x99, 0x1b,
       0x78, 0x52, 0xb8, 0x55] := by decide

/-- SHA-256 of the ASCII string abc is the well-known digest (FIPS test vector). -/
theorem sha256_abc_vector :
    sha256 [0x61, 0x62, 0x63] =
      [0xba, 0x78, 0x16, 0xbf, 0x8f, 0x01, 0xcf, 0xea, 0x41, 0x41, 0x40, 0xde, 0x5d, 0xae,
       0x22, 0x23, 0xb0, 0x03, 0x61, 0xa3, 0x96, 0x17, 0x7a, 0x9c, 0xb4, 0x10, 0xff, 0x61,
       0xf2, 0x00, 0x15, 0xad] := by decide

/-- The `u64` modulus `2^64`. -/
def U64_MOD : Nat := 18446744073709551616

/-- Rust `+` on `u64`, embedded totally: wrapping addition modulo `2^64`
    (release semantics; a debug build panics on the overflowing inputs). -/
def u64add (a b : Nat) : Nat := (a + b) % U64_MOD

/-! ## Embedding of `src/mssmt/src/tree.rs`

    The module defines `NodeHash`, a tagged-enum `Node` model with variants
    `Branch`, `Leaf`, `ComputedNode`, `Nil`, and `Tree::init`.  `Node::hash`
    takes `&mut self` only to cache the digest it returns; the cached value
    equals the computed one, so the embedding is the pure result.  `Vec`
    indexing is embedded totally: reading or writing an index not below the
    length yields `none` (in Rust it panics). -/

namespace TreeRs

def MAX_TREE_LEVEL : Nat := 256

def LAST_BIT_INDEX : Nat := MAX_TREE_LEVEL - 1

/-- `NodeHash::default()`: the all-zero 32-byte digest. -/
def zeroHash : List Nat := List.replicate 32 0

/-- The `Node` enum of `tree.rs`.  `Branch` carries the two boxed children,
    the `Option<NodeHash>` cache and the stored `sum` field; `Leaf` carries
    `value`, `sum` and the cache; `ComputedNode` a precomputed pair. -/
inductive Node where
  | Branch (left right : Node) (hash : Option (List Nat)) (sum : Nat)
  | Leaf (value : List Nat) (sum : Nat) (hash : Option (List Nat))
  | ComputedNode (hash : List Nat) (sum : Nat)
  | Nil
deriving DecidableEq

/-- `Node::hash` of `tree.rs`: return the cached digest when present,
    otherwise hash the children's digests (resp. the leaf value) together
    with the big-endian encoding of the *stored* `sum` field. -/
def Node.hash : Node → List Nat
  | .Branch _ _ (some h) _ => h
  | .Branch left right none sum => sha256 (left.hash ++ right.hash ++ be64 sum)
  | .Leaf _ _ (some h) => h
  | .Leaf value sum none => sha256 (value ++ be64 sum)
  | .ComputedNode h _ => h
  | .Nil => zeroHash

/-- `Node::sum` of `tree.rs`: a branch adds its children's sums with the
    wrapping `u64` addition, a leaf returns its own, and the `ComputedNode`
    and `Nil` arms return `0`. -/
def Node.sum : Node → Nat
  | .Branch left right _ _ => u64add left.sum right.sum
  | .Leaf _ s _ => s
  | .ComputedNode _ _ => 0
  | .Nil => 0

/-- `BranchNode::new` of `tree.rs`: children as given, `hash: None`, `sum: 0`. -/
def BranchNode.new (left right : Node) : Node :=
  Node.Branch left right none 0

/-- `LeafNode::default()` of `tree.rs`: all-zero value, sum 0, no cached hash. -/
def LeafNode.default : Node :=
  Node.Leaf (List.replicate 32 0) 0 none

/-- `Vec::with_capacity(n)`: a vector of length 0 (capacity is not length). -/
def vecWithCapacity (α : Type) (_n : Nat) : List α := []

/-- Total model of `v[i] = x`: `none` when `i` is out of bounds (Rust panics). -/
def vecSet (v : List α) (i : Nat) (x : α) : Option (List α) :=
  if i < v.length then some (v.set i x) else none

/-- Total model of `v[i]`: `none` when `i` is out of bounds (Rust panics). -/
def vecGet (v : List α) (i : Nat) : Option α := v.get? i

structure Tree where
  tree : List Node
  root_hash : List Nat
deriving DecidableEq

/-- `Tree::init` of `tree.rs`, embedded totally: allocate a capacity-only
    vector, write the default leaf at index `MAX_TREE_LEVEL`, then walk
    `(0..LAST_BIT_INDEX).rev()` building each level's branch from the level
    below, and finally take the hash of index 0 as the root.  Every indexing
    step is in the `Option` monad. -/
def Tree.init : Option Tree := do
  let tree_levels : List Node := vecWithCapacity Node (MAX_TREE_LEVEL + 1)
  let tree_levels ← vecSet tree_levels MAX_TREE_LEVEL LeafNode.default
  let tree_levels ← (List.range LAST_BIT_INDEX).reverse.foldlM
    (fun tl idx => do
      let child ← vecGet tl (idx + 1)
      vecSet tl idx (BranchNode.new child child))
    tree_levels
  let root ← vecGet tree_levels 0
  pure { tree := tree_levels, root_hash := root.hash }

end TreeRs

/-! ## Embedding of `src/mssmt/src/node.rs`

    Here nodes are a `Node` **trait** (`sum`, `value`, `hash`) with
    implementors `LeafNode` and `BranchNode`; a `Box<dyn Node>` child is
    captured by the record of its three method results.  Methods named after
    struct fields are suffixed `Fn` in the embedding.  `ComputedNode` is a
    plain struct that does not implement the trait. -/

namespace NodeRs

/-- A `Box<dyn Node>` trait object, seen through the trait's three methods. -/
structure DynNode where
  sum : Nat
  value : List Nat
  hash : List Nat
deriving DecidableEq

structure LeafNode where
  value : List Nat
  sum : Nat
  hash : Option (List Nat)
deriving DecidableEq

/-- `LeafNode::is_empty`: tests `self.value.len() == 0 && self.sum == 0`. -/
def LeafNode.is_empty (l : LeafNode) : Bool :=
  (l.value.length == 0) && (l.sum == 0)

/-- `<LeafNode as Node>::sum`. -/
def LeafNode.sumFn (l : LeafNode) : Nat := l.sum

/-- `<LeafNode as Node>::hash`: the cached digest when present, otherwise
    `SHA-256(value ∥ be64(sum))`. -/
def LeafNode.hashFn (l : LeafNode) : List Nat :=
  match l.hash with
  | some h => h
  | none => sha256 (l.value ++ be64 l.sum)

structure BranchNode where
  left : DynNode
  right : DynNode
  hash : Option (List Nat)
  sum : Nat
deriving DecidableEq

/-- `<BranchNode as Node>::sum`: `self.left.sum() + self.right.sum()`, a
    wrapping `u64` addition. -/
def BranchNode.sumFn (b : BranchNode) : Nat := u64add b.left.sum b.right.sum

/-- `<BranchNode as Node>::hash`: the cached digest when present, otherwise
    `SHA-256(left.hash ∥ right.hash ∥ be64(self.sum))` with the stored sum. -/
def BranchNode.hashFn (b : BranchNode) : List Nat :=
  match b.hash with
  | some h => h
  | none => sha256 (b.left.hash ++ b.right.hash ++ be64 b.sum)

/-- `BranchNode::new` of `node.rs`: stores the children but sets
    `hash: Some(NodeHash::default())` — the all-zero digest — and `sum: 0`. -/
def BranchNode.new (left right : DynNode) : BranchNode :=
  { left := left, right := right, hash := some TreeRs.zeroHash, sum := 0 }

structure ComputedNode where
  hash : List Nat
  sum : Nat
deriving DecidableEq

/-- `ComputedNode::new`. -/
def ComputedNode.new (hash : List Nat) (sum : Nat) : ComputedNode :=
  { hash := hash, sum := sum }

end NodeRs

/-! ## `NodeHash` hex (de)serialization

    `impl FromStr for NodeHash` and `impl Display for NodeHash` are textually
    identical in `tree.rs` and `node.rs`; they are embedded once.  The input
    `&str` is its UTF-8 byte sequence (`s.len()` in Rust is the byte length),
    so strings are lists of character codes.  `<[u8; 32]>::from_hex` of the
    `bitcoin` crate decodes two hex digits per byte and accepts both lower-
    and upper-case digits; `as_hex` formats in lower case. -/

/-- Value of one ASCII hex digit: `0`-`9`, `a`-`f` and `A`-`F`. -/
def hexVal (c : Nat) : Option Nat :=
  if 48 ≤ c ∧ c ≤ 57 then some (c - 48)
  else if 97 ≤ c ∧ c ≤ 102 then some (c - 87)
  else if 65 ≤ c ∧ c ≤ 70 then some (c - 55)
  else none

/-- Whether a character code is a hex digit (either case). -/
def isHexDigitCode (c : Nat) : Bool := (hexVal c).isSome

/-- Whether a character code is a lower-case hex digit. -/
def isLowerHexCode (c : Nat) : Bool := (48 ≤ c && c ≤ 57) || (97 ≤ c && c ≤ 102)

/-- The lower-case ASCII hex digit for a value below 16. -/
def hexDigitCode (v : Nat) : Nat := if v < 10 then 48 + v else 87 + v

/-- Decode a hex string two digits per byte; `none` on a non-hex digit or an
    odd length (the core of the crate's `from_hex`). -/
def fromHexPairs : List Nat → Option (List Nat)
  | [] => some []
  | [_] => none
  | c1 :: c2 :: rest => do
      let hi ← hexVal c1
      let lo ← hexVal c2
      let bs ← fromHexPairs rest
      pure ((16 * hi + lo) :: bs)

namespace NodeHash

/-- `NodeHash::from_str`: reject any input whose byte length is not 64, then
    decode with `<[u8; 32]>::from_hex`, mapping its failure to an error. -/
def from_str (s : List Nat) : Except String (List Nat) :=
  if s.length ≠ 64 then .error "Invalid string length"
  else
    match fromHexPairs s with
    | some bs => .ok bs
    | none => .error "Hex to array error"

/-- `impl Display for NodeHash`: the bytes in order, two lower-case hex
    digits each (`as_hex`). -/
def format (h : List Nat) : List Nat :=
  h.flatMap fun b => [hexDigitCode (b / 16), hexDigitCode (b % 16)]

end NodeHash

/-! ## Functional model of the spec's tree operations

    `tree.rs` declares `Tree` but implements only `init`; the spec's
    §4.4 `get`/`insert` have no code under `src/`.  They are therefore
    modelled from the spec below, on sparse nodes
    `{Empty, Leaf, Branch}` with a key's descent path as its 256 bits. -/

/-- Modelled from the spec: the sparse node shape of §3 that `get`/`insert`
    walk — an unpopulated subtree, a leaf carrying value and sum, or a
    branch with two children.  (The missing code: `Tree::get`/`Tree::insert`
    of §4.4.) -/
inductive SNode where
  | empty
  | leaf (value : List Nat) (sum : Nat)
  | branch (left right : SNode)
deriving DecidableEq

/-- Modelled from the spec: `get(key)` descends by the key's bits, resolving
    each branch's relevant child; it returns the terminal leaf's value/sum
    and signals non-inclusion (`none`) when an empty node is reached before
    the key's bits are exhausted. -/
def SNode.getPath : SNode → List Bool → Option (List Nat × Nat)
  | .leaf v s, [] => some (v, s)
  | _, [] => none
  | .empty, _ :: _ => none
  | .leaf _ _, _ :: _ => none
  | .branch l r, b :: bs => SNode.getPath (if b then r else l) bs

/-- The two children a descent step sees: a branch's own children, and the
    canonical empty pair for an unpopulated subtree. -/
def SNode.childrenOf : SNode → SNode × SNode
  | .branch l r => (l, r)
  | _ => (.empty, .empty)

/-- Modelled from the spec: `insert(key, value, sum)` replaces the terminal
    position with `Leaf(value, sum)` and rebuilds the branch on each level
    from the updated child on the key's path and the sibling off it. -/
def SNode.insertPath : SNode → List Bool → List Nat → Nat → SNode
  | _, [], v, s => .leaf v s
  | n, b :: bs, v, s =>
      let c := n.childrenOf
      if b then .branch c.1 (SNode.insertPath c.2 bs v s)
      else .branch (SNode.insertPath c.1 bs v s) c.2

/-- Modelled from the spec: a tree is its root node; keys are their 256-bit
    big-endian bit sequences. -/
structure STree where
  root : SNode
deriving DecidableEq

/-- Modelled from the spec: `Tree::insert` (§4.4). -/
def STree.insert (t : STree) (key : List Bool) (value : List Nat) (sum : Nat) : STree :=
  ⟨t.root.insertPath key value sum⟩

/-- Modelled from the spec: `Tree::get` (§4.4). -/
def STree.get (t : STree) (key : List Bool) : Option (List Nat × Nat) :=
  t.root.getPath key

/-! ## Lemmas about the hex codec -/

/-- A decoded hex digit is below 16. -/
theorem hexVal_lt {c v : Nat} (h : hexVal c = some v) : v < 16 := by
  unfold hexVal at h
  split at h
  · simp only [Option.some_inj] at h; omega
  · split at h
    · simp only [Option.some_inj] at h; omega
    · split at h
      · simp only [Option.some_inj] at h; omega
      · cases h

/-- Encoding below 16 then decoding is the identity. -/
theorem hexVal_hexDigitCode : ∀ v < 16, hexVal (hexDigitCode v) = some v := by decide

/-- `hexDigitCode` emits lower-case hex digits. -/
theorem isLowerHexCode_hexDigitCode : ∀ v < 16, isLowerHexCode (hexDigitCode v) = true := by
  decide

/-- A lower-case hex digit is a hex digit. -/
theorem isHexDigitCode_of_lower {c : Nat} (h : isLowerHexCode c = true) :
    isHexDigitCode c = true := by
  simp only [isLowerHexCode, Bool.or_eq_true, Bool.and_eq_true, decide_eq_true_eq] at h
  simp only [isHexDigitCode, hexVal]
  split
  · simp
  · split
    · simp
    · split
      · simp
      · exfalso; omega

/-- Decoding a lower-case hex digit then re-encoding gives the digit back. -/
theorem hexDigitCode_hexVal {c v : Nat} (hl : isLowerHexCode c = true)
    (h : hexVal c = some v) : hexDigitCode v = c := by
  simp only [isLowerHexCode, Bool.or_eq_true, Bool.and_eq_true, decide_eq_true_eq] at hl
  unfold hexVal at h
  unfold hexDigitCode
  split at h
  · simp only [Option.some_inj] at h
    split <;> omega
  · split at h
    · simp only [Option.some_inj] at h
      split <;> omega
    · split at h
      · simp only [Option.some_inj] at h
        split <;> omega
      · cases h

/-- Decoding the two digits of a byte below 256 prepends that byte. -/
theorem fromHexPairs_digits {b : Nat} (hb : b < 256) (rest : List Nat) :
    fromHexPairs (hexDigitCode (b / 16) :: hexDigitCode (b % 16) :: rest) =
      (fromHexPairs rest).map (b :: ·) := by
  have hd : b / 16 < 16 := by omega
  have hm : b % 16 < 16 := by omega
  simp only [fromHexPairs, hexVal_hexDigitCode _ hd, hexVal_hexDigitCode _ hm,
    Option.bind_some]
  cases fromHexPairs rest <;> simp [Nat.div_add_mod]

/-- Decoding the formatted digest gives the digest back, for bytes below 256. -/
theorem fromHexPairs_format {h : List Nat} (hb : ∀ b ∈ h, b < 256) :
    fromHexPairs (NodeHash.format h) = some h := by
  induction h with
  | nil => rfl
  | cons b rest ih =>
      have hb0 : b < 256 := hb b (List.mem_cons_self b rest)
      have hbr : ∀ x ∈ rest, x < 256 := fun x hx => hb x (List.mem_cons_of_mem b hx)
      simp only [NodeHash.format, List.flatMap_cons, List.cons_append, List.nil_append]
        at ih ⊢
      rw [fromHexPairs_digits hb0, ih hbr]
      rfl

/-- Formatting yields two digits per byte. -/
theorem format_length (h : List Nat) : (NodeHash.format h).length = 2 * h.length := by
  induction h with
  | nil => rfl
  | cons b rest ih =>
      simp only [NodeHash.format, List.flatMap_cons] at ih ⊢
      simp [ih]
      omega

/-- Every character the formatter emits is a lower-case hex digit. -/
theorem format_lower {h : List Nat} (hb : ∀ b ∈ h, b < 256) :
    ∀ c ∈ NodeHash.format h, isLowerHexCode c = true := by
  induction h with
  | nil => intro c hc; cases hc
  | cons b rest ih =>
      have hb0 : b < 256 := hb b (List.mem_cons_self b rest)
      have hbr : ∀ x ∈ rest, x < 256 := fun x hx => hb x (List.mem_cons_of_mem b hx)
      intro c hc
      simp only [NodeHash.format, List.flatMap_cons, List.cons_append, List.nil_append,
        List.mem_cons] at hc
      rcases hc with rfl | rfl | hc
      · exact isLowerHexCode_hexDigitCode _ (by omega)
      · exact isLowerHexCode_hexDigitCode _ (by omega)
      · exact ih hbr c hc

/-- On even-length inputs, pairwise decoding succeeds exactly when every
    character is a hex digit. -/
theorem fromHexPairs_isSome (s : List Nat) (he : s.length % 2 = 0) :
    (fromHexPairs s).isSome = s.all isHexDigitCode := by
  induction s using fromHexPairs.induct with
  | case1 => rfl
  | case2 c => simp at he
  | case3 c1 c2 rest ih =>
      have he2 : rest.length % 2 = 0 := by
        simp only [List.length_cons] at he; omega
      have hrec := ih he2
      cases h1 : hexVal c1 with
      | none => simp [fromHexPairs, h1, isHexDigitCode]
      | some v1 =>
        cases h2 : hexVal c2 with
        | none => simp [fromHexPairs, h1, h2, isHexDigitCode]
        | some v2 =>
          simp only [fromHexPairs, h1, h2, Option.bind_some, List.all_cons,
            isHexDigitCode, Option.isSome_some, Bool.true_and]
          cases hr : fromHexPairs rest with
          | none => rw [hr] at hrec; simp [← hrec]
          | some bs => rw [hr] at hrec; simp [← hrec]

/-- Pairwise decoding a string of lower-case digits then formatting the bytes
    reproduces the string. -/
theorem format_fromHexPairs {s b : List Nat} (h : fromHexPairs s = some b)
    (hl : ∀ c ∈ s, isLowerHexCode c = true) : NodeHash.format b = s := by
  induction s using fromHexPairs.induct generalizing b with
  | case1 => cases h; rfl
  | case2 c => cases h
  | case3 c1 c2 rest ih =>
      simp only [fromHexPairs] at h
      cases h1 : hexVal c1 with
      | none => rw [h1] at h; cases h
      | some v1 =>
        cases h2 : hexVal c2 with
        | none => rw [h1, h2] at h; cases h
        | some v2 =>
          rw [h1, h2] at h
          cases hr : fromHexPairs rest with
          | none => rw [hr] at h; cases h
          | some bs =>
            rw [hr] at h
            injection h with h
            subst h
            have hl1 : isLowerHexCode c1 = true := hl c1 (by simp)
            have hl2 : isLowerHexCode c2 = true := hl c2 (by simp)
            have hlr : ∀ c ∈ rest, isLowerHexCode c = true :=
              fun c hc => hl c (by simp [hc])
            have hv2 : v2 < 16 := hexVal_lt h2
            have e1 : (16 * v1 + v2) / 16 = v1 := by omega
            have e2 : (16 * v1 + v2) % 16 = v2 := by omega
            have hstep : NodeHash.format ((16 * v1 + v2) :: bs) =
                hexDigitCode ((16 * v1 + v2) / 16) ::
                  hexDigitCode ((16 * v1 + v2) % 16) :: NodeHash.format bs := by
              simp [NodeHash.format]
            rw [hstep, e1, e2, hexDigitCode_hexVal hl1 h1, hexDigitCode_hexVal hl2 h2,
              ih hr hlr]

/-- Descending the path just written always finds the leaf just written. -/
theorem getPath_insertPath (bits : List Bool) :
    ∀ (n : SNode) (v : List Nat) (s : Nat),
      (SNode.insertPath n bits v s).getPath bits = some (v, s) := by
  induction bits with
  | nil => intro n v s; rfl
  | cons b bs ih =>
      intro n v s
      cases b <;> simp [SNode.insertPath, SNode.getPath, ih]

/-! ## The claims -/

/-- C1: the claim says `Tree::init` yields the empty tree, with root hash
    `Empty.hash(0)` of the recursive table and root sum 0.  The code never
    gets there: its very first statement writes `tree_levels[MAX_TREE_LEVEL]`
    into a vector of length 0, so the totally embedded initializer is `none`
    (the Rust code panics) instead of any tree at all. -/
theorem tree_init_none : TreeRs.Tree.init = none := rfl

/-- C2: the write `tree_levels[MAX_TREE_LEVEL]` in `Tree::init` targets the
    vector created by `Vec::with_capacity(MAX_TREE_LEVEL + 1)`, whose length
    is 0; whatever node is written, index `MAX_TREE_LEVEL` is out of bounds
    and the `none` branch of total indexing is reached. -/
theorem init_write_out_of_bounds :
    (TreeRs.vecWithCapacity TreeRs.Node (TreeRs.MAX_TREE_LEVEL + 1)).length = 0 ∧
    ∀ n : TreeRs.Node,
      TreeRs.vecSet (TreeRs.vecWithCapacity TreeRs.Node (TreeRs.MAX_TREE_LEVEL + 1))
        TreeRs.MAX_TREE_LEVEL n = none :=
  ⟨rfl, fun _ => rfl⟩

/-- C3: the claim says every branch built by `BranchNode::new` hashes to
    `SHA-256(left.hash ∥ right.hash ∥ be64(left.sum + right.sum))`.  In
    `node.rs` the constructor caches `Some(NodeHash::default())`, so `hash()`
    returns the all-zero digest for every pair of children — and the all-zero
    digest is not the SHA-256 of the canonical preimage even for two empty
    children.  In `tree.rs` the constructor stores `sum: 0`, so the digest
    commits to `be64 0` rather than to the children's sums. -/
theorem branch_new_hash_zero :
    (∀ l r : NodeRs.DynNode, (NodeRs.BranchNode.new l r).hashFn = TreeRs.zeroHash) ∧
    sha256 (TreeRs.zeroHash ++ TreeRs.zeroHash ++ be64 0) ≠ TreeRs.zeroHash ∧
    (∀ l r : TreeRs.Node,
      (TreeRs.BranchNode.new l r).hash = sha256 (l.hash ++ r.hash ++ be64 0)) :=
  ⟨fun _ _ => rfl, by decide, fun _ _ => rfl⟩

/-- C4 counterexample: the claim says `sum()` is the exact integer sum of
    the children's sums for *arbitrary* children.  The source adds `u64`s,
    which wraps (release; debug builds panic instead): on a branch over two
    leaves of sum `2^63` — legitimate `u64` values — `sum()` returns `0`,
    not `2^64`, in both modules. -/
theorem branch_sum_overflow_cex :
    (TreeRs.Node.Branch (TreeRs.Node.Leaf TreeRs.zeroHash 9223372036854775808 none)
        (TreeRs.Node.Leaf TreeRs.zeroHash 9223372036854775808 none) none 0).sum ≠
      (TreeRs.Node.Leaf TreeRs.zeroHash 9223372036854775808 none).sum +
        (TreeRs.Node.Leaf TreeRs.zeroHash 9223372036854775808 none).sum ∧
    (NodeRs.BranchNode.mk ⟨9223372036854775808, TreeRs.zeroHash, TreeRs.zeroHash⟩
        ⟨9223372036854775808, TreeRs.zeroHash, TreeRs.zeroHash⟩ none 0).sumFn ≠
      (9223372036854775808 : Nat) + 9223372036854775808 :=
  ⟨by decide, by decide⟩

/-- C4 as amended: for every branch, `sum()` returns
    `(left.sum() + right.sum()) mod 2^64` — the exact integer sum whenever
    the children's sums total below `2^64`, so in particular with every
    empty child contributing 0 — in the `Branch` arm of `Node::sum` in
    `tree.rs` and in `BranchNode::sum` in `node.rs` alike, whatever the
    stored `sum` field holds. -/
theorem branch_sum_wrapped :
    (∀ (l r : TreeRs.Node) (oh : Option (List Nat)) (s : Nat),
      (TreeRs.Node.Branch l r oh s).sum = u64add l.sum r.sum) ∧
    (∀ (l r : TreeRs.Node) (oh : Option (List Nat)) (s : Nat),
      l.sum + r.sum < U64_MOD →
        (TreeRs.Node.Branch l r oh s).sum = l.sum + r.sum) ∧
    TreeRs.Node.Nil.sum = 0 ∧
    (∀ b : NodeRs.BranchNode, b.sumFn = u64add b.left.sum b.right.sum) ∧
    (∀ b : NodeRs.BranchNode, b.left.sum + b.right.sum < U64_MOD →
      b.sumFn = b.left.sum + b.right.sum) := by
  refine ⟨fun _ _ _ _ => rfl, fun l r _ _ h => ?_, rfl, fun _ => rfl, fun b h => ?_⟩
  · show u64add l.sum r.sum = l.sum + r.sum
    exact Nat.mod_eq_of_lt h
  · show u64add b.left.sum b.right.sum = b.left.sum + b.right.sum
    exact Nat.mod_eq_of_lt h

/-- Witness for C4's amended claim at non-overflowing concrete children. -/
theorem branch_sum_wrapped_witness :
    (TreeRs.Node.Leaf TreeRs.zeroHash 3 none).sum +
        (TreeRs.Node.Leaf TreeRs.zeroHash 4 none).sum < U64_MOD ∧
    (TreeRs.Node.Branch (TreeRs.Node.Leaf TreeRs.zeroHash 3 none)
        (TreeRs.Node.Leaf TreeRs.zeroHash 4 none) none 0).sum =
      (TreeRs.Node.Leaf TreeRs.zeroHash 3 none).sum +
        (TreeRs.Node.Leaf TreeRs.zeroHash 4 none).sum ∧
    (NodeRs.BranchNode.mk ⟨3, TreeRs.zeroHash, TreeRs.zeroHash⟩
        ⟨4, TreeRs.zeroHash, TreeRs.zeroHash⟩ none 0).sumFn =
      (NodeRs.BranchNode.mk ⟨3, TreeRs.zeroHash, TreeRs.zeroHash⟩
        ⟨4, TreeRs.zeroHash, TreeRs.zeroHash⟩ none 0).left.sum +
      (NodeRs.BranchNode.mk ⟨3, TreeRs.zeroHash, TreeRs.zeroHash⟩
        ⟨4, TreeRs.zeroHash, TreeRs.zeroHash⟩ none 0).right.sum :=
  ⟨by decide, branch_sum_wrapped.2.1 _ _ none 0 (by decide),
    branch_sum_wrapped.2.2.2.2 _ (by decide)⟩

/-- C5: a leaf with 32-byte value `v`, sum `s` and no precomputed hash
    hashes to `SHA-256(v ∥ be64(s))`, in the `Leaf` arm of `Node::hash` in
    `tree.rs` and in `LeafNode::hash` of `node.rs` alike. -/
theorem leaf_hash_preimage (v : List Nat) (s : Nat)
    (_hv : v.length = 32) (_hs : s < 18446744073709551616) :
    (TreeRs.Node.Leaf v s none).hash = sha256 (v ++ be64 s) ∧
    (NodeRs.LeafNode.mk v s none).hashFn = sha256 (v ++ be64 s) :=
  ⟨rfl, rfl⟩

/-- Witness for C5 at the all-zero 32-byte value with sum 5. -/
theorem leaf_hash_preimage_witness :
    (List.replicate 32 0).length = 32 ∧ (5 : Nat) < 18446744073709551616 ∧
    ((TreeRs.Node.Leaf (List.replicate 32 0) 5 none).hash =
        sha256 (List.replicate 32 0 ++ be64 5) ∧
      (NodeRs.LeafNode.mk (List.replicate 32 0) 5 none).hashFn =
        sha256 (List.replicate 32 0 ++ be64 5)) :=
  ⟨by decide, by decide, leaf_hash_preimage _ _ (by decide) (by decide)⟩

/-- C6: the claim says a `ComputedNode` answers with its stored hash *and*
    its stored sum.  The hash half holds, but the `ComputedNode` arm of
    `Node::sum` in `tree.rs` discards the stored sum and returns 0 — shown
    here at the concrete stored sum 5.  (In `node.rs`, `ComputedNode` does
    not implement the `Node` trait at all; its constructor merely stores the
    pair.) -/
theorem computed_node_sum_dropped :
    (∀ (h : List Nat) (s : Nat), (TreeRs.Node.ComputedNode h s).hash = h) ∧
    (∀ (h : List Nat) (s : Nat), (TreeRs.Node.ComputedNode h s).sum = 0) ∧
    (TreeRs.Node.ComputedNode TreeRs.zeroHash 5).sum = 0 ∧
    (∀ (h : List Nat) (s : Nat), (NodeRs.ComputedNode.new h s).hash = h ∧
      (NodeRs.ComputedNode.new h s).sum = s) :=
  ⟨fun _ _ => rfl, fun _ _ => rfl, rfl, fun _ _ => ⟨rfl, rfl⟩⟩

/-- C7: `NodeHash` parsing succeeds exactly on inputs of byte length 64 all
    of whose characters are hex digits, and fails with an error otherwise. -/
theorem from_str_ok_iff (s : List Nat) :
    (NodeHash.from_str s).isOk = (s.length == 64 && s.all isHexDigitCode) := by
  unfold NodeHash.from_str
  by_cases hl : s.length = 64
  · have he : s.length % 2 = 0 := by omega
    rw [if_neg (by simp [hl])]
    have hiff := fromHexPairs_isSome s he
    cases hfp : fromHexPairs s with
    | none => rw [hfp] at hiff; simp [hl, ← hiff, Except.isOk, Except.toBool]
    | some bs => rw [hfp] at hiff; simp [hl, ← hiff, Except.isOk, Except.toBool]
  · rw [if_pos hl]
    simp [hl, Except.isOk, Except.toBool]

/-- C8 counterexample: the claim says `format(parse(s)) == s` for *every*
    string the parser accepts.  The parser also accepts upper-case hex: on
    the 64 letters `A` (code 65) it succeeds with the bytes `0xAA`, yet
    formatting those bytes yields the lower-case digits again, not the
    original string. -/
theorem format_from_str_uppercase :
    NodeHash.from_str (List.replicate 64 65) = Except.ok (List.replicate 32 170) ∧
    NodeHash.format (List.replicate 32 170) ≠ List.replicate 64 65 :=
  ⟨rfl, by decide⟩

/-- C8 as amended: `parse(format(h)) = h` for every 32-byte digest, `format`
    always produces exactly 64 lower-case hex characters, and
    `format(parse(s)) = s` for every accepted string whose characters are
    lower-case hex digits. -/
theorem parse_format_roundtrip :
    (∀ h : List Nat, h.length = 32 → (∀ b ∈ h, b < 256) →
      NodeHash.from_str (NodeHash.format h) = Except.ok h ∧
      (NodeHash.format h).length = 64 ∧
      ∀ c ∈ NodeHash.format h, isLowerHexCode c = true) ∧
    (∀ s b : List Nat, NodeHash.from_str s = Except.ok b →
      (∀ c ∈ s, isLowerHexCode c = true) → NodeHash.format b = s) := by
  constructor
  · intro h hlen hb
    have hfl : (NodeHash.format h).length = 64 := by rw [format_length, hlen]
    refine ⟨?_, hfl, format_lower hb⟩
    unfold NodeHash.from_str
    rw [if_neg (by simp [hfl]), fromHexPairs_format hb]
  · intro s b hok hlow
    unfold NodeHash.from_str at hok
    split at hok
    · cases hok
    · cases hfp : fromHexPairs s with
      | none => rw [hfp] at hok; cases hok
      | some bs =>
          rw [hfp] at hok
          injection hok with hok
          subst hok
          exact format_fromHexPairs hfp hlow

/-- Witness for C8's amended claim at the all-zero digest and at its
    lower-case hex string. -/
theorem parse_format_roundtrip_witness :
    (List.replicate 32 0).length = 32 ∧
    NodeHash.from_str (NodeHash.format (List.replicate 32 0)) =
      Except.ok (List.replicate 32 0) ∧
    NodeHash.format (List.replicate 32 0) = NodeHash.format (List.replicate 32 0) :=
  ⟨by decide,
    ((parse_format_roundtrip.1 (List.replicate 32 0) (by decide) (by decide)).1),
    parse_format_roundtrip.2 (NodeHash.format (List.replicate 32 0))
      (List.replicate 32 0)
      ((parse_format_roundtrip.1 (List.replicate 32 0) (by decide) (by decide)).1)
      (by decide) ▸ rfl⟩

/-- C9: inserting `(k, v, s)` and then reading `k` back returns exactly
    `(v, s)`, for every 256-bit key, on the tree operations modelled from
    §4.4 of the spec (the repository declares `Tree` but implements neither
    `insert` nor `get`). -/
theorem insert_get_roundtrip (t : STree) (key : List Bool) (v : List Nat) (s : Nat)
    (_hk : key.length = 256) :
    (t.insert key v s).get key = some (v, s) :=
  getPath_insertPath key t.root v s

/-- Witness for C9 at the empty tree, the all-zero key, the all-zero value
    and sum 5. -/
theorem insert_get_roundtrip_witness :
    (List.replicate 256 false).length = 256 ∧
    (STree.insert ⟨SNode.empty⟩ (List.replicate 256 false) (List.replicate 32 0) 5).get
        (List.replicate 256 false) = some (List.replicate 32 0, 5) :=
  ⟨by decide, insert_get_roundtrip ⟨SNode.empty⟩ _ _ _ (by decide)⟩

/-- C10: `LeafNode::is_empty` returns `false` for every leaf — its first
    conjunct asks whether the fixed 32-byte value array has length 0, which
    never holds. -/
theorem leaf_is_empty_always_false (l : NodeRs.LeafNode) (hv : l.value.length = 32) :
    l.is_empty = false := by
  simp [NodeRs.LeafNode.is_empty, hv]

/-- Witness for C10 at the all-zero-value, zero-sum leaf the claim singles
    out. -/
theorem leaf_is_empty_always_false_witness :
    (NodeRs.LeafNode.mk (List.replicate 32 0) 0 none).value.length = 32 ∧
    (NodeRs.LeafNode.mk (List.replicate 32 0) 0 none).is_empty = false :=
  ⟨by decide, leaf_is_empty_always_false _ (by decide)⟩

